import Mathlib

/-!
Stack and Queue of `main.go`.

A shallow embedding of the two generic containers of `src/main.go`
(`Stack[T]` and `Queue[T]`, both a struct with the single slice field
`elementos`) and proofs of their operational contracts.

Modelling choices.

* A slice is modelled by the list of its visible elements (`s[0]`, ...,
  `s[len(s)-1]`).  Each container owns its slice exclusively (the field is
  written only by the methods below), so no aliasing is observable.
* Go `int` values (`len`, the index expressions `len-1`, `0`, `1`, and the
  result of `Size`) are integers.  A length is between `0` and the largest
  `int`, hence `len-1` never wraps and no reduction modulo `2^64` is needed.
* Indexing and reslicing are bounds-checked as the Go runtime checks them: an
  operation out of range yields a `RuntimePanic` instead of a value.  Methods
  that index or reslice therefore return in `Except RuntimePanic`.
* Methods with a pointer receiver that may assign `elementos` are functions
  from the state before to the result and the state after.
* `var zero T` is the zero value of the type parameter, supplied by `GoZero`.
-/

namespace TC3002B

/-- Zero value of a Go type, the value of `var zero T`. -/
class GoZero (T : Type) where
  /-- The zero value. -/
  zero : T

instance : GoZero Int := ⟨0⟩

instance : GoZero String := ⟨""⟩

instance : GoZero Bool := ⟨false⟩

/-- Run-time panics raised by the bounds checks of slice expressions. -/
inductive RuntimePanic where
  | indexOutOfRange
  | sliceBoundsOutOfRange
  deriving DecidableEq

/-- Go `len(xs)`, of type `int`. -/
def goLen {T : Type} (xs : List T) : Int := (xs.length : Int)

/-- Go `xs[i]`: the element at index `i`, or a panic unless `0 <= i < len(xs)`. -/
def goIndex {T : Type} (xs : List T) (i : Int) : Except RuntimePanic T :=
  if 0 ≤ i ∧ i < goLen xs then
    match xs[i.toNat]? with
    | some x => .ok x
    | none => .error .indexOutOfRange
  else
    .error .indexOutOfRange

/-- Go `xs[:hi]`: the first `hi` elements.  The runtime accepts
`0 <= hi <= cap(xs)`; capacity is not part of the model, so the check here is
the stricter `0 <= hi <= len(xs)` (a reslice accepted here is accepted by Go). -/
def goSliceTo {T : Type} (xs : List T) (hi : Int) : Except RuntimePanic (List T) :=
  if 0 ≤ hi ∧ hi ≤ goLen xs then
    .ok (xs.take hi.toNat)
  else
    .error .sliceBoundsOutOfRange

/-- Go `xs[lo:]`: all elements from index `lo` on, or a panic unless
`0 <= lo <= len(xs)`. -/
def goSliceFrom {T : Type} (xs : List T) (lo : Int) : Except RuntimePanic (List T) :=
  if 0 ≤ lo ∧ lo ≤ goLen xs then
    .ok (xs.drop lo.toNat)
  else
    .error .sliceBoundsOutOfRange

/-- Go `append(xs, x)`: the elements of `xs` followed by `x`. -/
def goAppend {T : Type} (xs : List T) (x : T) : List T := xs ++ [x]

/-! ## Stack -/

/-- `type Stack[T any] struct { elementos []T }`. -/
structure Stack (T : Type) where
  /-- Slice holding the elements, bottom first. -/
  elementos : List T
  deriving DecidableEq

/-- `NewStack`: `&Stack[T]{elementos: make([]T, 0)}`. -/
def NewStack (T : Type) : Stack T := { elementos := [] }

/-- `Push`: `s.elementos = append(s.elementos, item)`. -/
def Stack.Push {T : Type} (s : Stack T) (item : T) : Stack T :=
  { s with elementos := goAppend s.elementos item }

/-- `Pop`: on an empty slice returns `(zero, false)`; otherwise reads
`s.elementos[len-1]`, assigns `s.elementos[:len-1]` and returns `(item, true)`. -/
def Stack.Pop {T : Type} [GoZero T] (s : Stack T) :
    Except RuntimePanic ((T × Bool) × Stack T) :=
  if goLen s.elementos = 0 then
    .ok ((GoZero.zero, false), s)
  else do
    let item ← goIndex s.elementos (goLen s.elementos - 1)
    let rest ← goSliceTo s.elementos (goLen s.elementos - 1)
    pure ((item, true), { s with elementos := rest })

/-- `Peek`: on an empty slice returns `(zero, false)`; otherwise returns
`(s.elementos[len-1], true)`.  The method assigns nothing, so the state after
is the state before. -/
def Stack.Peek {T : Type} [GoZero T] (s : Stack T) :
    Except RuntimePanic ((T × Bool) × Stack T) :=
  if goLen s.elementos = 0 then
    .ok ((GoZero.zero, false), s)
  else do
    let item ← goIndex s.elementos (goLen s.elementos - 1)
    pure ((item, true), s)

/-- `IsEmpty`: `len(s.elementos) == 0`. -/
def Stack.IsEmpty {T : Type} (s : Stack T) : Bool :=
  decide (goLen s.elementos = 0)

/-- `Size`: `len(s.elementos)`. -/
def Stack.Size {T : Type} (s : Stack T) : Int :=
  goLen s.elementos

/-! ## Queue -/

/-- `type Queue[T any] struct { elementos []T }`. -/
structure Queue (T : Type) where
  /-- Slice holding the elements, head first. -/
  elementos : List T
  deriving DecidableEq

/-- `NewQueue`: `&Queue[T]{elementos: make([]T, 0)}`. -/
def NewQueue (T : Type) : Queue T := { elementos := [] }

/-- `Enqueue`: `q.elementos = append(q.elementos, item)`. -/
def Queue.Enqueue {T : Type} (q : Queue T) (item : T) : Queue T :=
  { q with elementos := goAppend q.elementos item }

/-- `Dequeue`: on an empty slice returns `(zero, false)`; otherwise reads
`q.elementos[0]`, assigns `q.elementos[1:]` and returns `(item, true)`. -/
def Queue.Dequeue {T : Type} [GoZero T] (q : Queue T) :
    Except RuntimePanic ((T × Bool) × Queue T) :=
  if goLen q.elementos = 0 then
    .ok ((GoZero.zero, false), q)
  else do
    let item ← goIndex q.elementos 0
    let rest ← goSliceFrom q.elementos 1
    pure ((item, true), { q with elementos := rest })

/-- `Peek`: on an empty slice returns `(zero, false)`; otherwise returns
`(q.elementos[0], true)`.  The method assigns nothing, so the state after is the
state before. -/
def Queue.Peek {T : Type} [GoZero T] (q : Queue T) :
    Except RuntimePanic ((T × Bool) × Queue T) :=
  if goLen q.elementos = 0 then
    .ok ((GoZero.zero, false), q)
  else do
    let item ← goIndex q.elementos 0
    pure ((item, true), q)

/-- `IsEmpty`: `len(q.elementos) == 0`. -/
def Queue.IsEmpty {T : Type} (q : Queue T) : Bool :=
  decide (goLen q.elementos = 0)

/-- `Size`: `len(q.elementos)`. -/
def Queue.Size {T : Type} (q : Queue T) : Int :=
  goLen q.elementos

/-! ## Call sequences

The contracts speak about sequences of calls made by a client such as
`testEstructuras`.  The drivers below thread the container through such a
sequence and collect what each call returned. -/

/-- `Push(p1); ...; Push(pn)` for the items of the list, in order. -/
def Stack.pushAll {T : Type} (s : Stack T) : List T → Stack T
  | [] => s
  | p :: ps => Stack.pushAll (s.Push p) ps

/-- The results of `n` consecutive calls of `Pop`, in call order, and the
stack after them. -/
def Stack.popN {T : Type} [GoZero T] :
    Nat → Stack T → Except RuntimePanic (List (T × Bool) × Stack T)
  | 0, s => .ok ([], s)
  | n + 1, s => do
    let (r, s1) ← s.Pop
    let (rs, s2) ← Stack.popN n s1
    pure (r :: rs, s2)

/-- The results of `n` consecutive calls of `Stack.Peek`, in call order, and the
stack after them. -/
def Stack.peekN {T : Type} [GoZero T] :
    Nat → Stack T → Except RuntimePanic (List (T × Bool) × Stack T)
  | 0, s => .ok ([], s)
  | n + 1, s => do
    let (r, s1) ← s.Peek
    let (rs, s2) ← Stack.peekN n s1
    pure (r :: rs, s2)

/-- `Enqueue(e1); ...; Enqueue(en)` for the items of the list, in order. -/
def Queue.enqueueAll {T : Type} (q : Queue T) : List T → Queue T
  | [] => q
  | e :: es => Queue.enqueueAll (q.Enqueue e) es

/-- The results of `n` consecutive calls of `Dequeue`, in call order, and the
queue after them. -/
def Queue.dequeueN {T : Type} [GoZero T] :
    Nat → Queue T → Except RuntimePanic (List (T × Bool) × Queue T)
  | 0, q => .ok ([], q)
  | n + 1, q => do
    let (r, q1) ← q.Dequeue
    let (rs, q2) ← Queue.dequeueN n q1
    pure (r :: rs, q2)

/-- The results of `n` consecutive calls of `Queue.Peek`, in call order, and the
queue after them. -/
def Queue.peekN {T : Type} [GoZero T] :
    Nat → Queue T → Except RuntimePanic (List (T × Bool) × Queue T)
  | 0, q => .ok ([], q)
  | n + 1, q => do
    let (r, q1) ← q.Peek
    let (rs, q2) ← Queue.peekN n q1
    pure (r :: rs, q2)

/-- One call on a stack. -/
inductive StackOp (T : Type) where
  | push (item : T)
  | pop
  | peek
  | isEmpty
  | size

/-- What a call on a stack returned. -/
inductive StackEvent (T : Type) where
  | pushed (item : T)
  | popped (item : T) (found : Bool)
  | peeked (item : T) (found : Bool)
  | emptiness (b : Bool)
  | sized (n : Int)

/-- Perform one call on a stack. -/
def Stack.step {T : Type} [GoZero T] (s : Stack T) :
    StackOp T → Except RuntimePanic (StackEvent T × Stack T)
  | .push item => .ok (.pushed item, s.Push item)
  | .pop => do
    let (r, s1) ← s.Pop
    pure (.popped r.1 r.2, s1)
  | .peek => do
    let (r, s1) ← s.Peek
    pure (.peeked r.1 r.2, s1)
  | .isEmpty => .ok (.emptiness s.IsEmpty, s)
  | .size => .ok (.sized s.Size, s)

/-- Perform a sequence of calls on a stack, in order. -/
def Stack.run {T : Type} [GoZero T] (s : Stack T) :
    List (StackOp T) → Except RuntimePanic (List (StackEvent T) × Stack T)
  | [] => .ok ([], s)
  | op :: ops => do
    let (e, s1) ← s.step op
    let (es, s2) ← Stack.run s1 ops
    pure (e :: es, s2)

/-- Number of calls of `Push` in a sequence of calls. -/
def StackOp.pushCalls {T : Type} : List (StackOp T) → Nat
  | [] => 0
  | .push _ :: ops => StackOp.pushCalls ops + 1
  | _ :: ops => StackOp.pushCalls ops

/-- Number of calls of `Pop` in a trace that returned `found = true`. -/
def StackEvent.popsFound {T : Type} : List (StackEvent T) → Nat
  | [] => 0
  | .popped _ true :: es => StackEvent.popsFound es + 1
  | _ :: es => StackEvent.popsFound es

/-- One call on a queue. -/
inductive QueueOp (T : Type) where
  | enqueue (item : T)
  | dequeue
  | peek
  | isEmpty
  | size

/-- What a call on a queue returned. -/
inductive QueueEvent (T : Type) where
  | enqueued (item : T)
  | dequeued (item : T) (found : Bool)
  | peeked (item : T) (found : Bool)
  | emptiness (b : Bool)
  | sized (n : Int)

/-- Perform one call on a queue. -/
def Queue.step {T : Type} [GoZero T] (q : Queue T) :
    QueueOp T → Except RuntimePanic (QueueEvent T × Queue T)
  | .enqueue item => .ok (.enqueued item, q.Enqueue item)
  | .dequeue => do
    let (r, q1) ← q.Dequeue
    pure (.dequeued r.1 r.2, q1)
  | .peek => do
    let (r, q1) ← q.Peek
    pure (.peeked r.1 r.2, q1)
  | .isEmpty => .ok (.emptiness q.IsEmpty, q)
  | .size => .ok (.sized q.Size, q)

/-- Perform a sequence of calls on a queue, in order. -/
def Queue.run {T : Type} [GoZero T] (q : Queue T) :
    List (QueueOp T) → Except RuntimePanic (List (QueueEvent T) × Queue T)
  | [] => .ok ([], q)
  | op :: ops => do
    let (e, q1) ← q.step op
    let (es, q2) ← Queue.run q1 ops
    pure (e :: es, q2)

/-- Number of calls of `Enqueue` in a sequence of calls. -/
def QueueOp.enqueueCalls {T : Type} : List (QueueOp T) → Nat
  | [] => 0
  | .enqueue _ :: ops => QueueOp.enqueueCalls ops + 1
  | _ :: ops => QueueOp.enqueueCalls ops

/-- Number of calls of `Dequeue` in a trace that returned `found = true`. -/
def QueueEvent.dequeuesFound {T : Type} : List (QueueEvent T) → Nat
  | [] => 0
  | .dequeued _ true :: es => QueueEvent.dequeuesFound es + 1
  | _ :: es => QueueEvent.dequeuesFound es

/-- The items passed to `Enqueue` in a sequence of calls, in call order. -/
def QueueOp.enqueuedItems {T : Type} : List (QueueOp T) → List T
  | [] => []
  | .enqueue item :: ops => item :: QueueOp.enqueuedItems ops
  | _ :: ops => QueueOp.enqueuedItems ops

/-- The values returned by the calls of `Dequeue` in a trace that returned
`found = true`, in call order. -/
def QueueEvent.dequeuedItems {T : Type} : List (QueueEvent T) → List T
  | [] => []
  | .dequeued item true :: es => item :: QueueEvent.dequeuedItems es
  | _ :: es => QueueEvent.dequeuedItems es

/-! ## Drain loops of `main`

`for !pila.IsEmpty() { if item, ok := pila.Pop(); ok { ... } }` and the same loop
over `cola` with `Dequeue`.  The body only prints, so an iteration is one call of
`Pop` (resp. `Dequeue`).  The loop is run for at most `fuel` iterations: the
outcome is `some (rs, s)` when the condition became false, with `rs` the results
of the calls made by the iterations, in order, and `s` the container on exit, and
`none` when the condition still holds after `fuel` iterations. -/

/-- The drain loop over a stack, for at most `fuel` iterations. -/
def Stack.drain {T : Type} [GoZero T] :
    Nat → Stack T → Except RuntimePanic (Option (List (T × Bool) × Stack T))
  | 0, s => if !s.IsEmpty then .ok none else .ok (some ([], s))
  | fuel + 1, s =>
    if !s.IsEmpty then do
      let (r, s1) ← s.Pop
      match ← Stack.drain fuel s1 with
      | none => pure none
      | some (rs, s2) => pure (some (r :: rs, s2))
    else
      .ok (some ([], s))

/-- The drain loop over a queue, for at most `fuel` iterations. -/
def Queue.drain {T : Type} [GoZero T] :
    Nat → Queue T → Except RuntimePanic (Option (List (T × Bool) × Queue T))
  | 0, q => if !q.IsEmpty then .ok none else .ok (some ([], q))
  | fuel + 1, q =>
    if !q.IsEmpty then do
      let (r, q1) ← q.Dequeue
      match ← Queue.drain fuel q1 with
      | none => pure none
      | some (rs, q2) => pure (some (r :: rs, q2))
    else
      .ok (some ([], q))

/-! ## Slice lemmas -/

theorem goLen_nonneg {T : Type} (xs : List T) : 0 ≤ goLen xs := by
  unfold goLen
  exact Int.ofNat_nonneg _

theorem goLen_eq_zero_iff {T : Type} (xs : List T) : goLen xs = 0 ↔ xs = [] := by
  unfold goLen
  constructor
  · intro h
    have h0 : xs.length = 0 := by exact_mod_cast h
    exact List.length_eq_zero.mp h0
  · rintro rfl
    rfl

theorem goLen_snoc {T : Type} (xs : List T) (x : T) :
    goLen (xs ++ [x]) = goLen xs + 1 := by
  simp [goLen]

theorem goLen_cons {T : Type} (x : T) (xs : List T) :
    goLen (x :: xs) = goLen xs + 1 := by
  simp [goLen]

/-- Indexing the last position of a non-empty slice is in bounds and yields the
last element. -/
theorem goIndex_last {T : Type} (xs : List T) (x : T) :
    goIndex (xs ++ [x]) (goLen (xs ++ [x]) - 1) = .ok x := by
  have hlen : goLen (xs ++ [x]) - 1 = (xs.length : Int) := by
    rw [goLen_snoc]; simp [goLen]
  rw [hlen]
  have hb : (0 : Int) ≤ (xs.length : Int) ∧ (xs.length : Int) < goLen (xs ++ [x]) := by
    rw [goLen_snoc]
    constructor
    · exact Int.ofNat_nonneg _
    · simp [goLen]
  unfold goIndex
  rw [if_pos hb]
  simp

/-- Reslicing a non-empty slice up to its last position is in bounds and drops
exactly the last element. -/
theorem goSliceTo_last {T : Type} (xs : List T) (x : T) :
    goSliceTo (xs ++ [x]) (goLen (xs ++ [x]) - 1) = .ok xs := by
  have hlen : goLen (xs ++ [x]) - 1 = (xs.length : Int) := by
    rw [goLen_snoc]; simp [goLen]
  rw [hlen]
  have hb : (0 : Int) ≤ (xs.length : Int) ∧ (xs.length : Int) ≤ goLen (xs ++ [x]) := by
    rw [goLen_snoc]
    constructor
    · exact Int.ofNat_nonneg _
    · simp [goLen]
  unfold goSliceTo
  rw [if_pos hb]
  simp

/-- Indexing position `0` of a non-empty slice is in bounds and yields the
head. -/
theorem goIndex_head {T : Type} (x : T) (xs : List T) :
    goIndex (x :: xs) 0 = .ok x := by
  have hb : (0 : Int) ≤ 0 ∧ (0 : Int) < goLen (x :: xs) := by
    rw [goLen_cons]
    have := goLen_nonneg xs
    constructor <;> omega
  unfold goIndex
  rw [if_pos hb]
  simp

/-- Reslicing a non-empty slice from position `1` is in bounds and drops exactly
the head. -/
theorem goSliceFrom_one {T : Type} (x : T) (xs : List T) :
    goSliceFrom (x :: xs) 1 = .ok xs := by
  have hb : (0 : Int) ≤ 1 ∧ (1 : Int) ≤ goLen (x :: xs) := by
    rw [goLen_cons]
    have := goLen_nonneg xs
    constructor <;> omega
  unfold goSliceFrom
  rw [if_pos hb]
  simp

/-! ## Single calls -/

theorem stack_pop_nil {T : Type} [GoZero T] :
    Stack.Pop (⟨[]⟩ : Stack T) = .ok ((GoZero.zero, false), ⟨[]⟩) := by
  rfl

theorem stack_pop_snoc {T : Type} [GoZero T] (xs : List T) (x : T) :
    Stack.Pop (⟨xs ++ [x]⟩ : Stack T) = .ok ((x, true), ⟨xs⟩) := by
  have hne : ¬ goLen (xs ++ [x]) = 0 := by
    rw [goLen_snoc]
    have := goLen_nonneg xs
    omega
  unfold Stack.Pop
  simp only [if_neg hne, goIndex_last, goSliceTo_last]
  rfl

theorem stack_peek_nil {T : Type} [GoZero T] :
    Stack.Peek (⟨[]⟩ : Stack T) = .ok ((GoZero.zero, false), ⟨[]⟩) := by
  rfl

theorem stack_peek_snoc {T : Type} [GoZero T] (xs : List T) (x : T) :
    Stack.Peek (⟨xs ++ [x]⟩ : Stack T) = .ok ((x, true), ⟨xs ++ [x]⟩) := by
  have hne : ¬ goLen (xs ++ [x]) = 0 := by
    rw [goLen_snoc]
    have := goLen_nonneg xs
    omega
  unfold Stack.Peek
  simp only [if_neg hne, goIndex_last]
  rfl

theorem queue_dequeue_nil {T : Type} [GoZero T] :
    Queue.Dequeue (⟨[]⟩ : Queue T) = .ok ((GoZero.zero, false), ⟨[]⟩) := by
  rfl

theorem queue_dequeue_cons {T : Type} [GoZero T] (x : T) (xs : List T) :
    Queue.Dequeue (⟨x :: xs⟩ : Queue T) = .ok ((x, true), ⟨xs⟩) := by
  have hne : ¬ goLen (x :: xs) = 0 := by
    rw [goLen_cons]
    have := goLen_nonneg xs
    omega
  unfold Queue.Dequeue
  simp only [if_neg hne, goIndex_head, goSliceFrom_one]
  rfl

theorem queue_peek_nil {T : Type} [GoZero T] :
    Queue.Peek (⟨[]⟩ : Queue T) = .ok ((GoZero.zero, false), ⟨[]⟩) := by
  rfl

theorem queue_peek_cons {T : Type} [GoZero T] (x : T) (xs : List T) :
    Queue.Peek (⟨x :: xs⟩ : Queue T) = .ok ((x, true), ⟨x :: xs⟩) := by
  have hne : ¬ goLen (x :: xs) = 0 := by
    rw [goLen_cons]
    have := goLen_nonneg xs
    omega
  unfold Queue.Peek
  simp only [if_neg hne, goIndex_head]
  rfl

/-- A slice is empty or ends in a last element. -/
theorem list_nil_or_snoc {T : Type} (xs : List T) :
    xs = [] ∨ ∃ ys y, xs = ys ++ [y] := by
  induction xs using List.reverseRecOn with
  | nil => exact Or.inl rfl
  | append_singleton ys y _ => exact Or.inr ⟨ys, y, rfl⟩

theorem stack_size_eq_zero_iff {T : Type} (s : Stack T) :
    s.Size = 0 ↔ s.elementos = [] := by
  unfold Stack.Size
  exact goLen_eq_zero_iff _

theorem queue_size_eq_zero_iff {T : Type} (q : Queue T) :
    q.Size = 0 ↔ q.elementos = [] := by
  unfold Queue.Size
  exact goLen_eq_zero_iff _

/-! ## Pushes followed by pops, enqueues followed by dequeues -/

theorem stack_pushAll_elementos {T : Type} (ps : List T) (s : Stack T) :
    (s.pushAll ps).elementos = s.elementos ++ ps := by
  induction ps generalizing s with
  | nil => simp [Stack.pushAll]
  | cons p ps ih =>
    rw [Stack.pushAll, ih]
    simp [Stack.Push, goAppend]

theorem stack_pushAll_eq {T : Type} (ps : List T) (s : Stack T) :
    s.pushAll ps = ⟨s.elementos ++ ps⟩ := by
  have h := stack_pushAll_elementos ps s
  cases hs : s.pushAll ps with
  | mk el =>
    rw [hs] at h
    simp only at h
    rw [h]

/-- Popping as many times as items were pushed on top of `base` returns those
items, last pushed first, and leaves `base`. -/
theorem stack_popN_append {T : Type} [GoZero T] (ps base : List T) :
    Stack.popN ps.length (⟨base ++ ps⟩ : Stack T)
      = .ok (ps.reverse.map (fun p => (p, true)), ⟨base⟩) := by
  induction ps using List.reverseRecOn with
  | nil => simp [Stack.popN]
  | append_singleton ps p ih =>
    have hlen : (ps ++ [p]).length = ps.length + 1 := by simp
    rw [hlen, Stack.popN, ← List.append_assoc, stack_pop_snoc]
    simp only [bind, Except.bind, ih]
    simp [pure, Except.pure]

theorem queue_enqueueAll_elementos {T : Type} (es : List T) (q : Queue T) :
    (q.enqueueAll es).elementos = q.elementos ++ es := by
  induction es generalizing q with
  | nil => simp [Queue.enqueueAll]
  | cons e es ih =>
    rw [Queue.enqueueAll, ih]
    simp [Queue.Enqueue, goAppend]

theorem queue_enqueueAll_eq {T : Type} (es : List T) (q : Queue T) :
    q.enqueueAll es = ⟨q.elementos ++ es⟩ := by
  have h := queue_enqueueAll_elementos es q
  cases hq : q.enqueueAll es with
  | mk el =>
    rw [hq] at h
    simp only at h
    rw [h]

/-- Dequeueing as many times as the head segment `es` is long returns its items
in order and leaves the remainder. -/
theorem queue_dequeueN_append {T : Type} [GoZero T] (es rest : List T) :
    Queue.dequeueN es.length (⟨es ++ rest⟩ : Queue T)
      = .ok (es.map (fun e => (e, true)), ⟨rest⟩) := by
  induction es with
  | nil => simp [Queue.dequeueN]
  | cons e es ih =>
    rw [List.length_cons, Queue.dequeueN, List.cons_append, queue_dequeue_cons]
    simp only [bind, Except.bind, ih]
    simp [pure, Except.pure]

/-! ## Peek -/

/-- On every stack `Peek` returns, reports what `Pop` would report, and hands
back the stack it was given. -/
theorem stack_peek_spec {T : Type} [GoZero T] (s : Stack T) :
    ∃ r s1, s.Peek = .ok (r, s) ∧ s.Pop = .ok (r, s1) := by
  obtain ⟨el⟩ := s
  rcases list_nil_or_snoc el with rfl | ⟨ys, y, rfl⟩
  · exact ⟨_, _, stack_peek_nil, stack_pop_nil⟩
  · exact ⟨_, _, stack_peek_snoc ys y, stack_pop_snoc ys y⟩

/-- On every queue `Peek` returns, reports what `Dequeue` would report, and hands
back the queue it was given. -/
theorem queue_peek_spec {T : Type} [GoZero T] (q : Queue T) :
    ∃ r q1, q.Peek = .ok (r, q) ∧ q.Dequeue = .ok (r, q1) := by
  obtain ⟨el⟩ := q
  cases el with
  | nil => exact ⟨_, _, queue_peek_nil, queue_dequeue_nil⟩
  | cons x xs => exact ⟨_, _, queue_peek_cons x xs, queue_dequeue_cons x xs⟩

theorem stack_peekN_of_peek {T : Type} [GoZero T] (s : Stack T) (r : T × Bool)
    (h : s.Peek = .ok (r, s)) (n : Nat) :
    Stack.peekN n s = .ok (List.replicate n r, s) := by
  induction n with
  | zero => rfl
  | succ n ih =>
    rw [Stack.peekN, h]
    simp only [bind, Except.bind, ih]
    simp [pure, Except.pure, List.replicate_succ]

theorem queue_peekN_of_peek {T : Type} [GoZero T] (q : Queue T) (r : T × Bool)
    (h : q.Peek = .ok (r, q)) (n : Nat) :
    Queue.peekN n q = .ok (List.replicate n r, q) := by
  induction n with
  | zero => rfl
  | succ n ih =>
    rw [Queue.peekN, h]
    simp only [bind, Except.bind, ih]
    simp [pure, Except.pure, List.replicate_succ]

/-! ## Size along arbitrary call sequences -/

/-- Every call on a stack returns, and moves `Size` up by one for a `Push`, down
by one for a `Pop` that found an element, and not at all otherwise. -/
theorem stack_step_size {T : Type} [GoZero T] (s : Stack T) (op : StackOp T) :
    ∃ e s1, s.step op = .ok (e, s1) ∧
      s1.Size + (StackEvent.popsFound [e] : Int) = s.Size + (StackOp.pushCalls [op] : Int) := by
  obtain ⟨el⟩ := s
  cases op with
  | push item =>
    refine ⟨_, _, rfl, ?_⟩
    simp [Stack.Size, Stack.Push, goAppend, goLen, StackEvent.popsFound, StackOp.pushCalls]
  | pop =>
    rcases list_nil_or_snoc el with rfl | ⟨ys, y, rfl⟩
    · refine ⟨.popped GoZero.zero false, ⟨[]⟩, ?_, ?_⟩
      · rw [Stack.step, stack_pop_nil]; rfl
      · simp [StackEvent.popsFound, StackOp.pushCalls]
    · refine ⟨.popped y true, ⟨ys⟩, ?_, ?_⟩
      · rw [Stack.step, stack_pop_snoc]; rfl
      · simp [Stack.Size, goLen, StackEvent.popsFound, StackOp.pushCalls]
  | peek =>
    rcases list_nil_or_snoc el with rfl | ⟨ys, y, rfl⟩
    · refine ⟨.peeked GoZero.zero false, ⟨[]⟩, ?_, ?_⟩
      · rw [Stack.step, stack_peek_nil]; rfl
      · simp [StackEvent.popsFound, StackOp.pushCalls]
    · refine ⟨.peeked y true, ⟨ys ++ [y]⟩, ?_, ?_⟩
      · rw [Stack.step, stack_peek_snoc]; rfl
      · simp [StackEvent.popsFound, StackOp.pushCalls]
  | isEmpty =>
    refine ⟨_, _, rfl, ?_⟩
    simp [StackEvent.popsFound, StackOp.pushCalls]
  | size =>
    refine ⟨_, _, rfl, ?_⟩
    simp [StackEvent.popsFound, StackOp.pushCalls]

theorem StackEvent.popsFound_cons {T : Type} (e : StackEvent T) (es : List (StackEvent T)) :
    StackEvent.popsFound (e :: es) = StackEvent.popsFound [e] + StackEvent.popsFound es := by
  cases e with
  | popped item found => cases found <;> simp [StackEvent.popsFound, Nat.add_comm]
  | pushed item => simp [StackEvent.popsFound]
  | peeked item found => simp [StackEvent.popsFound]
  | emptiness b => simp [StackEvent.popsFound]
  | sized n => simp [StackEvent.popsFound]

theorem StackOp.pushCalls_cons {T : Type} (op : StackOp T) (ops : List (StackOp T)) :
    StackOp.pushCalls (op :: ops) = StackOp.pushCalls [op] + StackOp.pushCalls ops := by
  cases op <;> simp [StackOp.pushCalls, Nat.add_comm]

/-- Every sequence of calls on a stack runs to its end, and the final `Size`
plus the number of successful pops equals the initial `Size` plus the number of
pushes. -/
theorem stack_run_size {T : Type} [GoZero T] (ops : List (StackOp T)) (s : Stack T) :
    ∃ tr s1, s.run ops = .ok (tr, s1) ∧
      s1.Size + (StackEvent.popsFound tr : Int) = s.Size + (StackOp.pushCalls ops : Int) := by
  induction ops generalizing s with
  | nil => exact ⟨[], s, rfl, by simp [StackEvent.popsFound, StackOp.pushCalls]⟩
  | cons op ops ih =>
    obtain ⟨e, s1, he, hs1⟩ := stack_step_size s op
    obtain ⟨tr, s2, htr, hs2⟩ := ih s1
    refine ⟨e :: tr, s2, ?_, ?_⟩
    · rw [Stack.run, he]
      simp only [bind, Except.bind, htr]
      rfl
    · rw [StackEvent.popsFound_cons, StackOp.pushCalls_cons]
      push_cast
      omega

/-- Every call on a queue returns, and moves `Size` up by one for an `Enqueue`,
down by one for a `Dequeue` that found an element, and not at all otherwise. -/
theorem queue_step_size {T : Type} [GoZero T] (q : Queue T) (op : QueueOp T) :
    ∃ e q1, q.step op = .ok (e, q1) ∧
      q1.Size + (QueueEvent.dequeuesFound [e] : Int)
        = q.Size + (QueueOp.enqueueCalls [op] : Int) := by
  obtain ⟨el⟩ := q
  cases op with
  | enqueue item =>
    refine ⟨_, _, rfl, ?_⟩
    simp [Queue.Size, Queue.Enqueue, goAppend, goLen, QueueEvent.dequeuesFound,
      QueueOp.enqueueCalls]
  | dequeue =>
    cases el with
    | nil =>
      refine ⟨.dequeued GoZero.zero false, ⟨[]⟩, ?_, ?_⟩
      · rw [Queue.step, queue_dequeue_nil]; rfl
      · simp [QueueEvent.dequeuesFound, QueueOp.enqueueCalls]
    | cons x xs =>
      refine ⟨.dequeued x true, ⟨xs⟩, ?_, ?_⟩
      · rw [Queue.step, queue_dequeue_cons]; rfl
      · simp [Queue.Size, goLen, QueueEvent.dequeuesFound, QueueOp.enqueueCalls]
  | peek =>
    cases el with
    | nil =>
      refine ⟨.peeked GoZero.zero false, ⟨[]⟩, ?_, ?_⟩
      · rw [Queue.step, queue_peek_nil]; rfl
      · simp [QueueEvent.dequeuesFound, QueueOp.enqueueCalls]
    | cons x xs =>
      refine ⟨.peeked x true, ⟨x :: xs⟩, ?_, ?_⟩
      · rw [Queue.step, queue_peek_cons]; rfl
      · simp [QueueEvent.dequeuesFound, QueueOp.enqueueCalls]
  | isEmpty =>
    refine ⟨_, _, rfl, ?_⟩
    simp [QueueEvent.dequeuesFound, QueueOp.enqueueCalls]
  | size =>
    refine ⟨_, _, rfl, ?_⟩
    simp [QueueEvent.dequeuesFound, QueueOp.enqueueCalls]

theorem QueueEvent.dequeuesFound_cons {T : Type} (e : QueueEvent T)
    (es : List (QueueEvent T)) :
    QueueEvent.dequeuesFound (e :: es)
      = QueueEvent.dequeuesFound [e] + QueueEvent.dequeuesFound es := by
  cases e with
  | dequeued item found => cases found <;> simp [QueueEvent.dequeuesFound, Nat.add_comm]
  | enqueued item => simp [QueueEvent.dequeuesFound]
  | peeked item found => simp [QueueEvent.dequeuesFound]
  | emptiness b => simp [QueueEvent.dequeuesFound]
  | sized n => simp [QueueEvent.dequeuesFound]

theorem QueueOp.enqueueCalls_cons {T : Type} (op : QueueOp T) (ops : List (QueueOp T)) :
    QueueOp.enqueueCalls (op :: ops)
      = QueueOp.enqueueCalls [op] + QueueOp.enqueueCalls ops := by
  cases op <;> simp [QueueOp.enqueueCalls, Nat.add_comm]

/-- Every sequence of calls on a queue runs to its end, and the final `Size`
plus the number of successful dequeues equals the initial `Size` plus the number
of enqueues. -/
theorem queue_run_size {T : Type} [GoZero T] (ops : List (QueueOp T)) (q : Queue T) :
    ∃ tr q1, q.run ops = .ok (tr, q1) ∧
      q1.Size + (QueueEvent.dequeuesFound tr : Int)
        = q.Size + (QueueOp.enqueueCalls ops : Int) := by
  induction ops generalizing q with
  | nil => exact ⟨[], q, rfl, by simp [QueueEvent.dequeuesFound, QueueOp.enqueueCalls]⟩
  | cons op ops ih =>
    obtain ⟨e, q1, he, hq1⟩ := queue_step_size q op
    obtain ⟨tr, q2, htr, hq2⟩ := ih q1
    refine ⟨e :: tr, q2, ?_, ?_⟩
    · rw [Queue.run, he]
      simp only [bind, Except.bind, htr]
      rfl
    · rw [QueueEvent.dequeuesFound_cons, QueueOp.enqueueCalls_cons]
      push_cast
      omega

/-! ## Contracts -/

/-- C1 (LIFO order).  For every element type and every sequence of items
`p1, ..., pn` (any `n >= 0`), after `NewStack` and `Push(p1)`, ..., `Push(pn)`
the next `n` calls of `Pop` all return normally, with results `(pn, true)`,
`(pn-1, true)`, ..., `(p1, true)` in exactly that order, and leave the stack
empty.  In particular pushing 10, 20 and popping twice returns 20 then 10, and
pushing 1, 2, 3 and popping three times returns 3, 2, 1. -/
theorem C1_lifo_order :
    (∀ (T : Type) [GoZero T] (ps : List T),
      Stack.popN ps.length ((NewStack T).pushAll ps)
        = .ok (ps.reverse.map (fun p => (p, true)), NewStack T))
    ∧ Stack.popN 2 (((NewStack Int).Push 10).Push 20)
        = .ok ([(20, true), (10, true)], NewStack Int)
    ∧ Stack.popN 3 ((((NewStack Int).Push 1).Push 2).Push 3)
        = .ok ([(3, true), (2, true), (1, true)], NewStack Int) := by
  refine ⟨?_, rfl, rfl⟩
  intro T _ ps
  rw [stack_pushAll_eq]
  exact stack_popN_append ps []

/-- C2 (FIFO order).  For every element type and every sequence of items
`e1, ..., en` (any `n >= 0`), after `NewQueue` and `Enqueue(e1)`, ...,
`Enqueue(en)` the next `n` calls of `Dequeue` all return normally, with results
`(e1, true)`, ..., `(en, true)` in exactly that order, and leave the queue
empty.  In particular enqueueing "a", "b" and dequeueing twice returns "a" then
"b", and likewise for "Primero", "Segundo", "Tercero". -/
theorem C2_fifo_order :
    (∀ (T : Type) [GoZero T] (es : List T),
      Queue.dequeueN es.length ((NewQueue T).enqueueAll es)
        = .ok (es.map (fun e => (e, true)), NewQueue T))
    ∧ Queue.dequeueN 2 (((NewQueue String).Enqueue "a").Enqueue "b")
        = .ok ([("a", true), ("b", true)], NewQueue String)
    ∧ Queue.dequeueN 3
          ((((NewQueue String).Enqueue "Primero").Enqueue "Segundo").Enqueue "Tercero")
        = .ok ([("Primero", true), ("Segundo", true), ("Tercero", true)],
            NewQueue String) := by
  refine ⟨?_, rfl, rfl⟩
  intro T _ es
  rw [queue_enqueueAll_eq]
  have h := queue_dequeueN_append es ([] : List T)
  simpa [NewQueue] using h

/-- C3 (empty-read safety of the stack).  For every element type `T` and every
stack whose `Size` is 0, `Pop` and `Peek` both return the zero value of `T` with
`found = false`, and the stack after the call is the stack before it; its `Size`
is still 0 and `IsEmpty` is still true. -/
theorem C3_stack_empty_read (T : Type) [GoZero T] (s : Stack T) (h : s.Size = 0) :
    s.Pop = .ok ((GoZero.zero, false), s)
    ∧ s.Peek = .ok ((GoZero.zero, false), s)
    ∧ s.Size = 0 ∧ s.IsEmpty = true := by
  have hnil : s.elementos = [] := (stack_size_eq_zero_iff s).mp h
  obtain ⟨el⟩ := s
  simp only at hnil
  subst hnil
  exact ⟨stack_pop_nil, stack_peek_nil, rfl, rfl⟩

/-- C3, instance: the stack of `int` made by `NewStack` has `Size` 0, and on it
`Pop` and `Peek` return `(0, false)` and leave it as it was. -/
theorem C3_stack_empty_read_witness :
    (NewStack Int).Size = 0
    ∧ ((NewStack Int).Pop = .ok (((0 : Int), false), NewStack Int)
      ∧ (NewStack Int).Peek = .ok (((0 : Int), false), NewStack Int)
      ∧ (NewStack Int).Size = 0 ∧ (NewStack Int).IsEmpty = true) :=
  ⟨rfl, C3_stack_empty_read Int (NewStack Int) rfl⟩

/-- C4 (empty-read safety of the queue).  For every element type `T` and every
queue whose `Size` is 0, `Dequeue` and `Peek` both return the zero value of `T`
with `found = false`, and the queue after the call is the queue before it; its
`Size` is still 0 and `IsEmpty` is still true. -/
theorem C4_queue_empty_read (T : Type) [GoZero T] (q : Queue T) (h : q.Size = 0) :
    q.Dequeue = .ok ((GoZero.zero, false), q)
    ∧ q.Peek = .ok ((GoZero.zero, false), q)
    ∧ q.Size = 0 ∧ q.IsEmpty = true := by
  have hnil : q.elementos = [] := (queue_size_eq_zero_iff q).mp h
  obtain ⟨el⟩ := q
  simp only at hnil
  subst hnil
  exact ⟨queue_dequeue_nil, queue_peek_nil, rfl, rfl⟩

/-- C4, instance: the queue of `string` made by `NewQueue` has `Size` 0, and on
it `Dequeue` and `Peek` return `("", false)` and leave it as it was. -/
theorem C4_queue_empty_read_witness :
    (NewQueue String).Size = 0
    ∧ ((NewQueue String).Dequeue = .ok (("", false), NewQueue String)
      ∧ (NewQueue String).Peek = .ok (("", false), NewQueue String)
      ∧ (NewQueue String).Size = 0 ∧ (NewQueue String).IsEmpty = true) :=
  ⟨rfl, C4_queue_empty_read String (NewQueue String) rfl⟩

/-- C5 (pop on a non-empty stack).  For every stack whose contents are
`a1, ..., a(m-1), am` (bottom first, `m >= 1`), `Pop` returns `(am, true)` and
the stack afterwards holds exactly `a1, ..., a(m-1)`, so `Size` went down by
exactly one and nothing else was removed, changed or reordered. -/
theorem C5_pop_nonempty (T : Type) [GoZero T] (as : List T) (am : T) :
    Stack.Pop (⟨as ++ [am]⟩ : Stack T) = .ok ((am, true), ⟨as⟩)
    ∧ (⟨as⟩ : Stack T).Size = (⟨as ++ [am]⟩ : Stack T).Size - 1 := by
  refine ⟨stack_pop_snoc as am, ?_⟩
  simp [Stack.Size, goLen]

/-- C6 (dequeue on a non-empty queue).  For every queue whose contents are
`a1, a2, ..., am` (head first, `m >= 1`), `Dequeue` returns `(a1, true)` and the
queue afterwards holds exactly `a2, ..., am` in the same order, so `Size` went
down by exactly one. -/
theorem C6_dequeue_nonempty (T : Type) [GoZero T] (a1 : T) (as : List T) :
    Queue.Dequeue (⟨a1 :: as⟩ : Queue T) = .ok ((a1, true), ⟨as⟩)
    ∧ (⟨as⟩ : Queue T).Size = (⟨a1 :: as⟩ : Queue T).Size - 1 := by
  refine ⟨queue_dequeue_cons a1 as, ?_⟩
  simp [Queue.Size, goLen]

/-- C7 (Peek has the result contract of the removal).  On every stack both
`Peek` and `Pop` return normally and with the same `(value, found)` pair, and on
every queue both `Peek` and `Dequeue` return normally and with the same
`(value, found)` pair. -/
theorem C7_peek_same_result (T : Type) [GoZero T] :
    (∀ s : Stack T, ∃ r s1 s2, s.Peek = .ok (r, s1) ∧ s.Pop = .ok (r, s2))
    ∧ (∀ q : Queue T, ∃ r q1 q2, q.Peek = .ok (r, q1) ∧ q.Dequeue = .ok (r, q2)) := by
  constructor
  · intro s
    obtain ⟨r, s1, hpeek, hpop⟩ := stack_peek_spec s
    exact ⟨r, s, s1, hpeek, hpop⟩
  · intro q
    obtain ⟨r, q1, hpeek, hdeq⟩ := queue_peek_spec q
    exact ⟨r, q, q1, hpeek, hdeq⟩

/-- C8 (Peek non-mutation).  For every stack and every queue, empty or not, and
every number `n` of consecutive calls of `Peek` (so in particular every
`n >= 1`), all `n` calls return the same `(value, found)` result, the one a
single `Peek` returns, and the container after them is the container before the
first call, so that its contents, `Size` and `IsEmpty` are as they were. -/
theorem C8_peek_non_mutation (T : Type) [GoZero T] (n : Nat) :
    (∀ s : Stack T, ∃ r s1, s.Peek = .ok (r, s)
      ∧ Stack.peekN n s = .ok (List.replicate n r, s1)
      ∧ s1.elementos = s.elementos ∧ s1.Size = s.Size ∧ s1.IsEmpty = s.IsEmpty)
    ∧ (∀ q : Queue T, ∃ r q1, q.Peek = .ok (r, q)
      ∧ Queue.peekN n q = .ok (List.replicate n r, q1)
      ∧ q1.elementos = q.elementos ∧ q1.Size = q.Size ∧ q1.IsEmpty = q.IsEmpty) := by
  constructor
  · intro s
    obtain ⟨r, _, hpeek, _⟩ := stack_peek_spec s
    exact ⟨r, s, hpeek, stack_peekN_of_peek s r hpeek n, rfl, rfl, rfl⟩
  · intro q
    obtain ⟨r, _, hpeek, _⟩ := queue_peek_spec q
    exact ⟨r, q, hpeek, queue_peekN_of_peek q r hpeek n, rfl, rfl, rfl⟩

/-- C9 (size consistency).  Starting from `NewStack`, every finite sequence of
calls of `Push`, `Pop`, `Peek`, `IsEmpty` and `Size`, in any interleaving, runs
to its end; if it contains `k` calls of `Push` and `j` of its calls of `Pop`
returned `found = true`, then `j <= k` and `Size()` afterwards is `k - j`.  The
same holds from `NewQueue` with `Enqueue` and `Dequeue`. -/
theorem C9_size_consistency (T : Type) [GoZero T] :
    (∀ ops : List (StackOp T), ∃ tr s,
      (NewStack T).run ops = .ok (tr, s)
      ∧ StackEvent.popsFound tr ≤ StackOp.pushCalls ops
      ∧ s.Size = (StackOp.pushCalls ops : Int) - (StackEvent.popsFound tr : Int))
    ∧ (∀ ops : List (QueueOp T), ∃ tr q,
      (NewQueue T).run ops = .ok (tr, q)
      ∧ QueueEvent.dequeuesFound tr ≤ QueueOp.enqueueCalls ops
      ∧ q.Size = (QueueOp.enqueueCalls ops : Int) - (QueueEvent.dequeuesFound tr : Int)) := by
  constructor
  · intro ops
    obtain ⟨tr, s, hrun, hsize⟩ := stack_run_size ops (NewStack T)
    have h0 : (NewStack T).Size = 0 := rfl
    have hnn : 0 ≤ s.Size := goLen_nonneg _
    rw [h0] at hsize
    exact ⟨tr, s, hrun, by omega, by omega⟩
  · intro ops
    obtain ⟨tr, q, hrun, hsize⟩ := queue_run_size ops (NewQueue T)
    have h0 : (NewQueue T).Size = 0 := rfl
    have hnn : 0 ≤ q.Size := goLen_nonneg _
    rw [h0] at hsize
    exact ⟨tr, q, hrun, by omega, by omega⟩

/-- C10 (new-empty invariant).  For every element type `T`, the stack returned
by `NewStack` and the queue returned by `NewQueue` have `IsEmpty() == true` and
`Size() == 0`. -/
theorem C10_new_empty (T : Type) :
    (NewStack T).IsEmpty = true ∧ (NewStack T).Size = 0
    ∧ (NewQueue T).IsEmpty = true ∧ (NewQueue T).Size = 0 :=
  ⟨rfl, rfl, rfl, rfl⟩

/-! ## Order of the queue along arbitrary call sequences -/

/-- Every sequence of calls on a queue runs to its end, and the initial contents
followed by the enqueued items are the dequeued values followed by the final
contents. -/
theorem queue_run_fifo {T : Type} [GoZero T] (ops : List (QueueOp T)) (q : Queue T) :
    ∃ tr q1, q.run ops = .ok (tr, q1) ∧
      q.elementos ++ QueueOp.enqueuedItems ops
        = QueueEvent.dequeuedItems tr ++ q1.elementos := by
  induction ops generalizing q with
  | nil => exact ⟨[], q, rfl, by simp [QueueOp.enqueuedItems, QueueEvent.dequeuedItems]⟩
  | cons op ops ih =>
    obtain ⟨el⟩ := q
    cases op with
    | enqueue item =>
      obtain ⟨tr, q2, htr, hq2⟩ := ih (Queue.Enqueue ⟨el⟩ item)
      refine ⟨.enqueued item :: tr, q2, ?_, ?_⟩
      · rw [Queue.run, Queue.step]
        simp only [bind, Except.bind, htr]
        rfl
      · simp only [Queue.Enqueue, goAppend] at hq2
        simpa [QueueOp.enqueuedItems, QueueEvent.dequeuedItems] using hq2
    | dequeue =>
      cases el with
      | nil =>
        obtain ⟨tr, q2, htr, hq2⟩ := ih (⟨[]⟩ : Queue T)
        refine ⟨.dequeued GoZero.zero false :: tr, q2, ?_, ?_⟩
        · have he : Queue.step (⟨[]⟩ : Queue T) .dequeue
              = .ok (.dequeued GoZero.zero false, ⟨[]⟩) := by
            rw [Queue.step, queue_dequeue_nil]; rfl
          rw [Queue.run, he]
          simp only [bind, Except.bind, htr]
          rfl
        · simpa [QueueOp.enqueuedItems, QueueEvent.dequeuedItems] using hq2
      | cons x xs =>
        obtain ⟨tr, q2, htr, hq2⟩ := ih (⟨xs⟩ : Queue T)
        refine ⟨.dequeued x true :: tr, q2, ?_, ?_⟩
        · have he : Queue.step (⟨x :: xs⟩ : Queue T) .dequeue
              = .ok (.dequeued x true, ⟨xs⟩) := by
            rw [Queue.step, queue_dequeue_cons]; rfl
          rw [Queue.run, he]
          simp only [bind, Except.bind, htr]
          rfl
        · simp only at hq2
          simp [QueueOp.enqueuedItems, QueueEvent.dequeuedItems, hq2]
    | peek =>
      obtain ⟨r, _, hpeek, _⟩ := queue_peek_spec (⟨el⟩ : Queue T)
      obtain ⟨tr, q2, htr, hq2⟩ := ih (⟨el⟩ : Queue T)
      refine ⟨.peeked r.1 r.2 :: tr, q2, ?_, ?_⟩
      · have he : Queue.step (⟨el⟩ : Queue T) .peek
            = .ok (.peeked r.1 r.2, ⟨el⟩) := by
          rw [Queue.step, hpeek]; rfl
        rw [Queue.run, he]
        simp only [bind, Except.bind, htr]
        rfl
      · simpa [QueueOp.enqueuedItems, QueueEvent.dequeuedItems] using hq2
    | isEmpty =>
      obtain ⟨tr, q2, htr, hq2⟩ := ih (⟨el⟩ : Queue T)
      refine ⟨.emptiness (Queue.IsEmpty ⟨el⟩) :: tr, q2, ?_, ?_⟩
      · rw [Queue.run, Queue.step]
        simp only [bind, Except.bind, htr]
        rfl
      · simpa [QueueOp.enqueuedItems, QueueEvent.dequeuedItems] using hq2
    | size =>
      obtain ⟨tr, q2, htr, hq2⟩ := ih (⟨el⟩ : Queue T)
      refine ⟨.sized (Queue.Size ⟨el⟩) :: tr, q2, ?_, ?_⟩
      · rw [Queue.run, Queue.step]
        simp only [bind, Except.bind, htr]
        rfl
      · simpa [QueueOp.enqueuedItems, QueueEvent.dequeuedItems] using hq2

/-! ## Drain loops -/

theorem stack_isEmpty_nil {T : Type} : Stack.IsEmpty (⟨[]⟩ : Stack T) = true := by
  rfl

theorem stack_isEmpty_snoc {T : Type} (xs : List T) (x : T) :
    Stack.IsEmpty (⟨xs ++ [x]⟩ : Stack T) = false := by
  have hne : ¬ goLen (xs ++ [x]) = 0 := by
    rw [goLen_snoc]
    have := goLen_nonneg xs
    omega
  simp [Stack.IsEmpty, hne]

theorem queue_isEmpty_nil {T : Type} : Queue.IsEmpty (⟨[]⟩ : Queue T) = true := by
  rfl

theorem queue_isEmpty_cons {T : Type} (x : T) (xs : List T) :
    Queue.IsEmpty (⟨x :: xs⟩ : Queue T) = false := by
  have hne : ¬ goLen (x :: xs) = 0 := by
    rw [goLen_cons]
    have := goLen_nonneg xs
    omega
  simp [Queue.IsEmpty, hne]

/-- On an empty stack the loop exits at once, whatever the fuel. -/
theorem stack_drain_nil {T : Type} [GoZero T] (fuel : Nat) :
    Stack.drain fuel (⟨[]⟩ : Stack T) = .ok (some ([], ⟨[]⟩)) := by
  cases fuel <;> rfl

/-- With at least as much fuel as elements, the loop over a stack pops every
element, top first, and exits on the empty stack. -/
theorem stack_drain_all {T : Type} [GoZero T] (xs : List T) (extra : Nat) :
    Stack.drain (xs.length + extra) (⟨xs⟩ : Stack T)
      = .ok (some (xs.reverse.map (fun x => (x, true)), ⟨[]⟩)) := by
  induction xs using List.reverseRecOn with
  | nil => simpa using stack_drain_nil extra
  | append_singleton xs x ih =>
    have hlen : (xs ++ [x]).length + extra = (xs.length + extra) + 1 := by
      simp; omega
    rw [hlen, Stack.drain, stack_isEmpty_snoc, stack_pop_snoc]
    simp only [bind, Except.bind, ih]
    simp [pure, Except.pure]

/-- On an empty queue the loop exits at once, whatever the fuel. -/
theorem queue_drain_nil {T : Type} [GoZero T] (fuel : Nat) :
    Queue.drain fuel (⟨[]⟩ : Queue T) = .ok (some ([], ⟨[]⟩)) := by
  cases fuel <;> rfl

/-- With at least as much fuel as elements, the loop over a queue dequeues every
element, head first, and exits on the empty queue. -/
theorem queue_drain_all {T : Type} [GoZero T] (xs : List T) (extra : Nat) :
    Queue.drain (xs.length + extra) (⟨xs⟩ : Queue T)
      = .ok (some (xs.map (fun x => (x, true)), ⟨[]⟩)) := by
  induction xs with
  | nil => simpa using queue_drain_nil extra
  | cons x xs ih =>
    have hlen : (x :: xs).length + extra = (xs.length + extra) + 1 := by
      simp; omega
    rw [hlen, Queue.drain, queue_isEmpty_cons, queue_dequeue_cons]
    simp only [bind, Except.bind, ih]
    simp [pure, Except.pure]

/-! ## Contracts, continued -/

/-- C11 (emptiness and size).  For every stack and every queue, `IsEmpty()` is
true if and only if `Size()` is 0, and `Size()` is never negative. -/
theorem C11_isEmpty_iff_size_zero (T : Type) :
    (∀ s : Stack T, (s.IsEmpty = true ↔ s.Size = 0) ∧ 0 ≤ s.Size)
    ∧ (∀ q : Queue T, (q.IsEmpty = true ↔ q.Size = 0) ∧ 0 ≤ q.Size) := by
  constructor
  · intro s
    refine ⟨?_, goLen_nonneg _⟩
    simp [Stack.IsEmpty, Stack.Size]
  · intro q
    refine ⟨?_, goLen_nonneg _⟩
    simp [Queue.IsEmpty, Queue.Size]

/-- C12 (push then pop).  For every stack `s`, empty or not, and every item `x`:
after `Push(x)`, `Peek` returns `(x, true)` and changes nothing, and `Pop` returns
`(x, true)` and leaves the stack with exactly the contents of `s`. -/
theorem C12_push_top_pop_undoes (T : Type) [GoZero T] (s : Stack T) (x : T) :
    (s.Push x).Peek = .ok ((x, true), s.Push x)
    ∧ (s.Push x).Pop = .ok ((x, true), s) := by
  obtain ⟨el⟩ := s
  exact ⟨stack_peek_snoc el x, stack_pop_snoc el x⟩

/-- C13 (enqueue appends at the tail).  For every queue with contents
`a1, ..., am` and every item `x`, after `Enqueue(x)` the contents are exactly
`a1, ..., am, x`.  When the queue was not empty `Peek` still returns
`(a1, true)`, and when it was empty `Peek` returns `(x, true)`. -/
theorem C13_enqueue_appends (T : Type) [GoZero T] (x : T) :
    (∀ q : Queue T, (q.Enqueue x).elementos = q.elementos ++ [x])
    ∧ (∀ (a1 : T) (rest : List T),
        (Queue.Enqueue ⟨a1 :: rest⟩ x).Peek
          = .ok ((a1, true), ⟨a1 :: (rest ++ [x])⟩))
    ∧ (Queue.Enqueue (⟨[]⟩ : Queue T) x).Peek = .ok ((x, true), ⟨[x]⟩) := by
  refine ⟨fun q => rfl, ?_, ?_⟩
  · intro a1 rest
    exact queue_peek_cons a1 (rest ++ [x])
  · exact queue_peek_cons x []

/-- C14 (no fatal error paths).  On every stack each of `Push`, `Pop`, `Peek`,
`IsEmpty` and `Size`, and on every queue each of `Enqueue`, `Dequeue`, `Peek`,
`IsEmpty` and `Size`, returns a normal result and never a run-time panic, and so
does every finite sequence of such calls.  For every slice, either its length is
0, in which case the index and reslice expressions are not reached, or
`elementos[len-1]`, `elementos[:len-1]`, `elementos[0]` and `elementos[1:]` are
all in bounds. -/
theorem C14_no_fatal_paths (T : Type) [GoZero T] :
    (∀ (s : Stack T) (op : StackOp T), ∃ e s1, s.step op = .ok (e, s1))
    ∧ (∀ (q : Queue T) (op : QueueOp T), ∃ e q1, q.step op = .ok (e, q1))
    ∧ (∀ (s : Stack T) (ops : List (StackOp T)), ∃ tr s1, s.run ops = .ok (tr, s1))
    ∧ (∀ (q : Queue T) (ops : List (QueueOp T)), ∃ tr q1, q.run ops = .ok (tr, q1))
    ∧ (∀ s : Stack T, (∃ r s1, s.Pop = .ok (r, s1)) ∧ (∃ r s1, s.Peek = .ok (r, s1)))
    ∧ (∀ q : Queue T, (∃ r q1, q.Dequeue = .ok (r, q1)) ∧ (∃ r q1, q.Peek = .ok (r, q1)))
    ∧ (∀ xs : List T, goLen xs = 0 ∨
        ((∃ x, goIndex xs (goLen xs - 1) = .ok x)
          ∧ (∃ r, goSliceTo xs (goLen xs - 1) = .ok r)
          ∧ (∃ x, goIndex xs 0 = .ok x)
          ∧ (∃ r, goSliceFrom xs 1 = .ok r))) := by
  refine ⟨?_, ?_, ?_, ?_, ?_, ?_, ?_⟩
  · intro s op
    obtain ⟨e, s1, h, _⟩ := stack_step_size s op
    exact ⟨e, s1, h⟩
  · intro q op
    obtain ⟨e, q1, h, _⟩ := queue_step_size q op
    exact ⟨e, q1, h⟩
  · intro s ops
    obtain ⟨tr, s1, h, _⟩ := stack_run_size ops s
    exact ⟨tr, s1, h⟩
  · intro q ops
    obtain ⟨tr, q1, h, _⟩ := queue_run_size ops q
    exact ⟨tr, q1, h⟩
  · intro s
    obtain ⟨r, s1, hpeek, hpop⟩ := stack_peek_spec s
    exact ⟨⟨r, s1, hpop⟩, ⟨r, s, hpeek⟩⟩
  · intro q
    obtain ⟨r, q1, hpeek, hdeq⟩ := queue_peek_spec q
    exact ⟨⟨r, q1, hdeq⟩, ⟨r, q, hpeek⟩⟩
  · intro xs
    rcases list_nil_or_snoc xs with rfl | ⟨ys, y, rfl⟩
    · exact Or.inl rfl
    · refine Or.inr ⟨⟨y, goIndex_last ys y⟩, ⟨ys, goSliceTo_last ys y⟩, ?_, ?_⟩
      · cases ys with
        | nil => exact ⟨y, goIndex_head y []⟩
        | cons z zs => exact ⟨z, goIndex_head z (zs ++ [y])⟩
      · cases ys with
        | nil => exact ⟨[], goSliceFrom_one y []⟩
        | cons z zs => exact ⟨zs ++ [y], goSliceFrom_one z (zs ++ [y])⟩

/-- C16 (FIFO under arbitrary interleaving).  Every finite sequence of calls on
a queue made by `NewQueue`, with `Enqueue` and `Dequeue` interleaved in any way
(and `Peek`, `IsEmpty`, `Size` allowed in between), runs to its end; the values
returned by the calls of `Dequeue` with `found = true`, in call order, followed
by the final contents of the queue, are exactly the enqueued items in call
order.  So the dequeued values are an initial segment of the enqueued items and
the final contents are the remaining enqueued items, in enqueue order. -/
theorem C16_fifo_interleaving (T : Type) [GoZero T] (ops : List (QueueOp T)) :
    ∃ tr q, (NewQueue T).run ops = .ok (tr, q)
      ∧ QueueOp.enqueuedItems ops = QueueEvent.dequeuedItems tr ++ q.elementos
      ∧ QueueEvent.dequeuedItems tr <+: QueueOp.enqueuedItems ops
      ∧ q.elementos
          = (QueueOp.enqueuedItems ops).drop (QueueEvent.dequeuedItems tr).length := by
  obtain ⟨tr, q, hrun, hfifo⟩ := queue_run_fifo ops (NewQueue T)
  have h : QueueOp.enqueuedItems ops = QueueEvent.dequeuedItems tr ++ q.elementos := by
    simpa [NewQueue] using hfifo
  refine ⟨tr, q, hrun, h, ⟨q.elementos, h.symm⟩, ?_⟩
  rw [h]
  simp

/-- C17 (balanced push/pop restores the stack).  For every stack `s`, empty or
not, and every list of items `x1, ..., xn`: after `Push(x1)`, ..., `Push(xn)` the
next `n` calls of `Pop` return `(xn, true)`, ..., `(x1, true)` in that order and
leave the stack equal to `s`; the elements `s` held are not returned, removed or
reordered. -/
theorem C17_balanced_push_pop (T : Type) [GoZero T] (s : Stack T) (xs : List T) :
    Stack.popN xs.length (s.pushAll xs)
      = .ok (xs.reverse.map (fun x => (x, true)), s) := by
  rw [stack_pushAll_eq]
  exact stack_popN_append xs s.elementos

/-- C18 (drain loop).  For every stack holding `n` elements, the loop
`for !IsEmpty() { Pop() }`, given fuel for `n` or more iterations, exits after
exactly `n` iterations; every `Pop` in it returned `found = true`; on exit
`IsEmpty()` is true and one more `Pop` returns `found = false`.  The same holds
for every queue with `Dequeue`. -/
theorem C18_drain_loop (T : Type) [GoZero T] (extra : Nat) :
    (∀ s : Stack T, ∃ rs s1,
      Stack.drain (s.elementos.length + extra) s = .ok (some (rs, s1))
      ∧ (rs.length : Int) = s.Size
      ∧ rs.map Prod.snd = List.replicate rs.length true
      ∧ s1.IsEmpty = true
      ∧ s1.Pop = .ok ((GoZero.zero, false), s1))
    ∧ (∀ q : Queue T, ∃ rs q1,
      Queue.drain (q.elementos.length + extra) q = .ok (some (rs, q1))
      ∧ (rs.length : Int) = q.Size
      ∧ rs.map Prod.snd = List.replicate rs.length true
      ∧ q1.IsEmpty = true
      ∧ q1.Dequeue = .ok ((GoZero.zero, false), q1)) := by
  constructor
  · intro s
    obtain ⟨el⟩ := s
    refine ⟨_, _, stack_drain_all el extra, ?_, ?_, stack_isEmpty_nil, stack_pop_nil⟩
    · simp [Stack.Size, goLen]
    · simp [List.eq_replicate_iff]
  · intro q
    obtain ⟨el⟩ := q
    refine ⟨_, _, queue_drain_all el extra, ?_, ?_, queue_isEmpty_nil, queue_dequeue_nil⟩
    · simp [Queue.Size, goLen]
    · simp [List.eq_replicate_iff]

end TC3002B
